import Mathlib

/-!
Verification of the padding and pose-estimation core of `etn/networks.py`.

The padded tensor is modelled as a `List α` of slices along the padded axis:
an element of type `α` stands for the whole cross-section of the tensor at one
index of that axis (all batch/channel/other-spatial coordinates), so
`torch.narrow`/`torch.cat` along the axis become `List.drop`/`List.take`/`(· ++ ·)`
and all other axes are carried through unchanged inside the slices.
-/

set_option autoImplicit false

universe u v

/-- Model of `torch.Tensor.narrow(axis, start, length)` restricted to the padded
axis.  A negative `start` counts from the end of the axis, and an out-of-range
selection is an error (`none`), as in PyTorch. -/
def narrow {α : Type u} (x : List α) (start : Int) (len : Nat) : Option (List α) :=
  let s : Int := if start < 0 then start + x.length else start
  if 0 ≤ s ∧ s + len ≤ (x.length : Int) then some ((x.drop s.toNat).take len) else none

/-- Model of `_cyclic_pad(x, pad, axis)` with an explicit `(left, right)` pad pair.
Mirrors the source control flow: the early return when both amounts are zero,
the `narrow` of the first `pad[1]` slices (`left`) and of the last `pad[0]`
slices (`right`), and the three concatenation cases.  (In Python `left`/`right`
are only bound when their amount is positive; the `pure []` branches stand for
the unused variable and never reach the result.) -/
def cyclic_pad {α : Type u} (x : List α) (pad : Nat × Nat) : Option (List α) :=
  if pad.1 = 0 ∧ pad.2 = 0 then some x
  else do
    let left ← if 0 < pad.2 then narrow x 0 pad.2 else pure []
    let right ← if 0 < pad.1 then narrow x ((x.length : Int) - pad.1) pad.1 else pure []
    if pad.1 = 0 then pure (x ++ left)
    else if pad.2 = 0 then pure (right ++ x)
    else pure (right ++ x ++ left)

theorem narrow_zero {α : Type u} (x : List α) (r : Nat) (hr : r ≤ x.length) :
    narrow x 0 r = some (x.take r) := by
  simp only [narrow]
  have h0 : ¬ ((0 : Int) < 0) := by omega
  rw [if_neg h0, if_pos (by constructor <;> omega)]
  simp

theorem narrow_last {α : Type u} (x : List α) (l : Nat) (hpos : 0 < l) (hl : l ≤ x.length) :
    narrow x ((x.length : Int) - l) l = some (x.drop (x.length - l)) := by
  simp only [narrow]
  have hnn : ¬ ((x.length : Int) - l < 0) := by omega
  rw [if_neg hnn, if_pos (by constructor <;> omega)]
  have hs : ((x.length : Int) - l).toNat = x.length - l := by omega
  rw [hs]
  congr 1
  apply List.take_of_length_le
  simp only [List.length_drop]
  omega

theorem narrow_none_of_lt {α : Type u} (x : List α) (r : Nat) (hr : x.length < r) :
    narrow x 0 r = none := by
  simp only [narrow]
  have h0 : ¬ ((0 : Int) < 0) := by omega
  rw [if_neg h0, if_neg]
  omega

theorem narrow_last_none_of_lt {α : Type u} (x : List α) (l : Nat) (hl : x.length < l) :
    narrow x ((x.length : Int) - l) l = none := by
  simp only [narrow]
  by_cases hneg : ((x.length : Int) - l) < 0
  · rw [if_pos hneg, if_neg]
    omega
  · rw [if_neg hneg, if_neg]
    omega

/-- Characterisation of `cyclic_pad` for in-range amounts: the prepended block is
the last `l` slices of the input and the appended block is its first `r` slices. -/
theorem cyclic_pad_eq {α : Type u} (x : List α) (l r : Nat)
    (hl : l ≤ x.length) (hr : r ≤ x.length) :
    cyclic_pad x (l, r) = some (x.drop (x.length - l) ++ x ++ x.take r) := by
  by_cases h00 : l = 0 ∧ r = 0
  · obtain ⟨h1, h2⟩ := h00
    subst h1; subst h2
    simp [cyclic_pad]
  · rw [cyclic_pad, if_neg h00]
    by_cases hl0 : l = 0
    · subst hl0
      have hr0 : 0 < r := by omega
      rw [show ((0, r) : Nat × Nat).2 = r from rfl]
      simp only
      rw [if_pos hr0, narrow_zero x r hr]
      simp [hr0.ne']
    · by_cases hr0 : r = 0
      · subst hr0
        simp only
        rw [if_neg (by omega), narrow_last x l (by omega) hl]
        simp [hl0]
      · simp only
        rw [if_pos (by omega), narrow_zero x r hr, narrow_last x l (by omega) hl]
        simp [hl0, hr0]

/-- `cyclic_pad` fails (as `torch.narrow` does) when either amount exceeds the
axis length. -/
theorem cyclic_pad_none {α : Type u} (x : List α) (l r : Nat)
    (h : x.length < l ∨ x.length < r) :
    cyclic_pad x (l, r) = none := by
  have hne : ¬ (l = 0 ∧ r = 0) := by omega
  rw [cyclic_pad, if_neg hne]
  rcases h with hl | hr
  · have hl0 : 0 < l := by omega
    by_cases hrlen : r ≤ x.length
    · by_cases hr0 : 0 < r
      · simp [hr0, hl0, narrow_zero x r hrlen, narrow_last_none_of_lt x l hl]
      · simp [hr0, hl0, narrow_last_none_of_lt x l hl]
    · have hr0 : 0 < r := by omega
      simp [hr0, narrow_none_of_lt x r (by omega)]
  · have hr0 : 0 < r := by omega
    simp [hr0, narrow_none_of_lt x r hr]

/-- The padding modes accepted by `_pad1d`/`_pad2d`: Python `None`,
`'constant'`, `'reflect'`, `'replicate'` and `'cyclic'`. -/
inductive PadMode : Type
| nomode
| constant
| reflect
| replicate
| cyclic

/-- Last element of a list with a default, as PyTorch's replication padding
reads the border element of the padded axis. -/
def lastD {α : Type u} (d : α) : List α → α
  | [] => d
  | [a] => a
  | _ :: b :: t => lastD d (b :: t)

/-- One application of axis padding with a symmetric amount `p`, as `_pad1d`
and each branch of `_pad2d` perform it: Python `None` is a pass-through,
`'cyclic'` calls `_cyclic_pad`, and the other modes delegate to `F.pad`
(constant-zero fill `z`, border reflection, border replication).  Reflection
requires `p` to be smaller than the axis length and replication requires a
non-empty axis, as in PyTorch; out-of-range requests are errors (`none`). -/
def pad_axis {α : Type u} (z : α) (mode : PadMode) (p : Nat) (xs : List α) : Option (List α) :=
  match mode with
  | .nomode => some xs
  | .constant => some (List.replicate p z ++ xs ++ List.replicate p z)
  | .reflect =>
      if p < xs.length then
        some ((((xs.drop 1).take p).reverse) ++ xs ++
          (((xs.take (xs.length - 1)).drop (xs.length - 1 - p)).reverse))
      else none
  | .replicate =>
      match xs with
      | [] => if p = 0 then some [] else none
      | a :: t => some (List.replicate p a ++ (a :: t) ++ List.replicate p (lastD a (a :: t)))
  | .cyclic => cyclic_pad xs (p, p)

/-- Applying an axis operation across the other axis of a 2-D tensor:
the per-row operation is applied to every row, and a failure on any row is a
failure of the whole tensor operation. -/
def mapO {α : Type u} {β : Type v} (g : α → Option β) : List α → Option (List β)
  | [] => some []
  | a :: t => do
    let b ← g a
    let bs ← mapO g t
    pure (b :: bs)

/-- Width of the tensor after width-axis padding with amount `p` in mode `m`
(shape bookkeeping used for the zero-fill rows of constant height padding). -/
def widthNew (m : PadMode) (p w : Nat) : Nat :=
  match m with
  | .nomode => w
  | _ => w + 2 * p

/-- Model of `_pad2d(x, pad, mode)` on a `height × width` tensor given as a
list of rows of width `w` (the tensor's shape metadata): the width axis is
padded first (per row), then the height axis (on the list of rows), exactly in
the order the source performs it.  Constant height padding fills with zero rows
of the current width. -/
def pad2d (wmode hmode : PadMode) (wp hp w : Nat) (x : List (List Int)) :
    Option (List (List Int)) := do
  let out ← mapO (pad_axis (0 : Int) wmode wp) x
  pad_axis (List.replicate (widthNew wmode wp w) (0 : Int)) hmode hp out

/-- The same two per-axis padding applications in the opposite order: height
axis first (with zero-fill rows of the original width `w`), then width axis. -/
def pad2d_hw (wmode hmode : PadMode) (wp hp w : Nat) (x : List (List Int)) :
    Option (List (List Int)) := do
  let out ← pad_axis (List.replicate w (0 : Int)) hmode hp x
  mapO (pad_axis (0 : Int) wmode wp) out

/-- Success condition of `pad_axis` as a function of the axis length only. -/
def padOk (m : PadMode) (p n : Nat) : Prop :=
  match m with
  | .nomode => True
  | .constant => True
  | .reflect => p < n
  | .replicate => 0 < n ∨ p = 0
  | .cyclic => p ≤ n

theorem lastD_map {α : Type u} {β : Type v} (f : α → β) :
    ∀ (l : List α) (d : α), lastD (f d) (l.map f) = f (lastD d l)
  | [], _ => rfl
  | [_], _ => rfl
  | _ :: b :: t, d => by
      show lastD (f d) (List.map f (b :: t)) = f (lastD d (b :: t))
      exact lastD_map f (b :: t) d

theorem lastD_mem {α : Type u} : ∀ (l : List α) (d : α), l ≠ [] → lastD d l ∈ l
  | [a], _, _ => by simp [lastD]
  | a :: b :: t, d, _ => by
      show lastD d (b :: t) ∈ a :: b :: t
      exact List.mem_cons_of_mem a (lastD_mem (b :: t) d (by simp))

theorem lastD_self {α : Type u} (d : α) : ∀ n, lastD d (List.replicate n d) = d
  | 0 => rfl
  | 1 => rfl
  | n + 2 => by
      show lastD d (List.replicate (n + 1) d) = d
      exact lastD_self d (n + 1)

theorem pad_axis_isSome {α : Type u} (z : α) (m : PadMode) (p : Nat) (xs : List α) :
    (pad_axis z m p xs).isSome ↔ padOk m p xs.length := by
  cases m with
  | nomode => simp [pad_axis, padOk]
  | constant => simp [pad_axis, padOk]
  | reflect => by_cases h : p < xs.length <;> simp [pad_axis, padOk, h]
  | replicate =>
      cases xs with
      | nil => by_cases h : p = 0 <;> simp [pad_axis, padOk, h]
      | cons a t => simp [pad_axis, padOk]
  | cyclic =>
      by_cases h : p ≤ xs.length
      · simp [pad_axis, cyclic_pad_eq xs p p h h, padOk, h]
      · simp [pad_axis, cyclic_pad_none xs p p (Or.inl (by omega)), padOk, h]

theorem cyclic_pad_map {α : Type u} {β : Type v} (f : α → β) (xs : List α) (p q : Nat) :
    cyclic_pad (xs.map f) (p, q) = Option.map (List.map f) (cyclic_pad xs (p, q)) := by
  by_cases hp : p ≤ xs.length
  · by_cases hq : q ≤ xs.length
    · rw [cyclic_pad_eq xs p q hp hq,
        cyclic_pad_eq (xs.map f) p q (by simpa) (by simpa)]
      simp
    · rw [cyclic_pad_none xs p q (Or.inr (by omega)),
        cyclic_pad_none (xs.map f) p q (by simp; omega)]
      rfl
  · rw [cyclic_pad_none xs p q (Or.inl (by omega)),
      cyclic_pad_none (xs.map f) p q (by simp; omega)]
    rfl

theorem pad_axis_map {α : Type u} {β : Type v} (f : α → β) (z : α) (m : PadMode) (p : Nat)
    (xs : List α) :
    pad_axis (f z) m p (xs.map f) = Option.map (List.map f) (pad_axis z m p xs) := by
  cases m with
  | nomode => simp [pad_axis]
  | constant => simp [pad_axis]
  | reflect => by_cases h : p < xs.length <;> simp [pad_axis, h]
  | replicate =>
      cases xs with
      | nil => by_cases h : p = 0 <;> simp [pad_axis, h]
      | cons a t =>
          have hl : lastD (f a) (List.map f (a :: t)) = f (lastD a (a :: t)) :=
            lastD_map f (a :: t) a
          simp only [List.map_cons] at hl
          simp [pad_axis, hl]
  | cyclic => simpa [pad_axis] using cyclic_pad_map f xs p p

theorem pad_axis_mem_of_mem {α : Type u} (z : α) (m : PadMode) (p : Nat) {xs ys : List α}
    (hys : pad_axis z m p xs = some ys) {a : α} (ha : a ∈ xs) : a ∈ ys := by
  cases m with
  | nomode =>
      simp only [pad_axis] at hys
      obtain rfl := Option.some.inj hys
      exact ha
  | constant =>
      simp only [pad_axis] at hys
      obtain rfl := Option.some.inj hys
      simp [ha]
  | reflect =>
      by_cases h : p < xs.length
      · rw [pad_axis, if_pos h] at hys
        obtain rfl := Option.some.inj hys
        simp [ha]
      · rw [pad_axis, if_neg h] at hys
        cases hys
  | replicate =>
      cases xs with
      | nil => cases ha
      | cons b t =>
          simp only [pad_axis] at hys
          obtain rfl := Option.some.inj hys
          simp only [List.mem_append]
          left; right; exact ha
  | cyclic =>
      have hys' : cyclic_pad xs (p, p) = some ys := hys
      have hp : p ≤ xs.length := by
        by_contra hc
        rw [cyclic_pad_none xs p p (Or.inl (by omega))] at hys'
        cases hys'
      rw [cyclic_pad_eq xs p p hp hp] at hys'
      obtain rfl := Option.some.inj hys'
      simp [ha]

theorem pad_axis_mem {α : Type u} (z : α) (m : PadMode) (p : Nat) {xs ys : List α}
    (hys : pad_axis z m p xs = some ys) {b : α} (hb : b ∈ ys) : b ∈ xs ∨ b = z := by
  cases m with
  | nomode =>
      simp only [pad_axis] at hys
      obtain rfl := Option.some.inj hys
      exact Or.inl hb
  | constant =>
      simp only [pad_axis] at hys
      obtain rfl := Option.some.inj hys
      rcases List.mem_append.mp hb with h | h
      · rcases List.mem_append.mp h with h2 | h2
        · exact Or.inr (List.eq_of_mem_replicate h2)
        · exact Or.inl h2
      · exact Or.inr (List.eq_of_mem_replicate h)
  | reflect =>
      by_cases h : p < xs.length
      · rw [pad_axis, if_pos h] at hys
        obtain rfl := Option.some.inj hys
        rcases List.mem_append.mp hb with h1 | h1
        · rcases List.mem_append.mp h1 with h2 | h2
          · exact Or.inl (List.mem_of_mem_drop (List.mem_of_mem_take
              (List.mem_reverse.mp h2)))
          · exact Or.inl h2
        · exact Or.inl (List.mem_of_mem_take (List.mem_of_mem_drop
            (List.mem_reverse.mp h1)))
      · rw [pad_axis, if_neg h] at hys
        cases hys
  | replicate =>
      cases xs with
      | nil =>
          by_cases h : p = 0
          · subst h
            simp only [pad_axis, if_pos rfl] at hys
            obtain rfl := Option.some.inj hys
            cases hb
          · rw [pad_axis] at hys
            simp [h] at hys
      | cons a t =>
          simp only [pad_axis] at hys
          obtain rfl := Option.some.inj hys
          rcases List.mem_append.mp hb with h1 | h1
          · rcases List.mem_append.mp h1 with h2 | h2
            · exact Or.inl (List.eq_of_mem_replicate h2 ▸ List.mem_cons_self a t)
            · exact Or.inl h2
          · refine Or.inl ?_
            have := List.eq_of_mem_replicate h1
            subst this
            exact lastD_mem (a :: t) a (by simp)
  | cyclic =>
      have hys' : cyclic_pad xs (p, p) = some ys := hys
      have hp : p ≤ xs.length := by
        by_contra hc
        rw [cyclic_pad_none xs p p (Or.inl (by omega))] at hys'
        cases hys'
      rw [cyclic_pad_eq xs p p hp hp] at hys'
      obtain rfl := Option.some.inj hys'
      rcases List.mem_append.mp hb with h1 | h1
      · rcases List.mem_append.mp h1 with h2 | h2
        · exact Or.inl (List.mem_of_mem_drop h2)
        · exact Or.inl h2
      · exact Or.inl (List.mem_of_mem_take h1)

theorem pad_axis_const {α : Type u} (z : α) (m : PadMode) (p w : Nat) (h : padOk m p w) :
    pad_axis z m p (List.replicate w z) = some (List.replicate (widthNew m p w) z) := by
  cases m with
  | nomode => simp [pad_axis, widthNew]
  | constant =>
      simp only [pad_axis, widthNew]
      rw [← List.replicate_add, ← List.replicate_add]
      congr 2
      omega
  | reflect =>
      have hp : p < w := h
      rw [pad_axis, if_pos (by simpa using hp)]
      simp only [List.length_replicate, List.drop_replicate, List.take_replicate,
        List.reverse_replicate, widthNew]
      rw [← List.replicate_add, ← List.replicate_add]
      congr 2
      omega
  | replicate =>
      cases w with
      | zero =>
          have hp : p = 0 := by
            rcases h with h | h
            · omega
            · exact h
          subst hp
          simp [pad_axis, widthNew]
      | succ n =>
          rw [show List.replicate (n + 1) z = z :: List.replicate n z from rfl]
          simp only [pad_axis, widthNew]
          rw [show (z :: List.replicate n z) = List.replicate (n + 1) z from rfl, lastD_self]
          rw [← List.replicate_add, ← List.replicate_add]
          congr 2
          omega
  | cyclic =>
      have hp : p ≤ w := h
      rw [pad_axis, cyclic_pad_eq _ p p (by simpa) (by simpa)]
      simp only [List.length_replicate, List.drop_replicate, List.take_replicate,
        List.reverse_replicate, widthNew]
      rw [← List.replicate_add, ← List.replicate_add]
      congr 2
      omega

theorem mapO_eq_none {α : Type u} {β : Type v} (g : α → Option β) {xs : List α} {a : α}
    (ha : a ∈ xs) (hg : g a = none) : mapO g xs = none := by
  induction xs with
  | nil => cases ha
  | cons b t ih =>
      rcases List.mem_cons.mp ha with h | h
      · subst h
        simp [mapO, hg]
      · cases hb : g b with
        | none => simp [mapO, hb]
        | some v => simp [mapO, hb, ih h]

theorem mapO_eq_map {α : Type u} {β : Type v} (g : α → Option β) (g' : α → β) {xs : List α}
    (h : ∀ a ∈ xs, g a = some (g' a)) : mapO g xs = some (xs.map g') := by
  induction xs with
  | nil => rfl
  | cons b t ih =>
      simp [mapO, h b (by simp), ih (fun a ha => h a (by simp [ha]))]

/-- Claim C1: for pad amounts `(l, r)` with `0 ≤ l, r ≤ axis length`, `_cyclic_pad`
prepends the input's last `l` slices and appends its first `r` slices; a zero
amount contributes an empty block (no concatenation operand), and with both
amounts zero the input itself is returned. -/
theorem cyclic_pad_wrap_blocks {α : Type u} (x : List α) (l r : Nat)
    (hl : l ≤ x.length) (hr : r ≤ x.length) :
    cyclic_pad x (l, r) = some (x.drop (x.length - l) ++ x ++ x.take r) ∧
    cyclic_pad x (0, 0) = some x :=
  ⟨cyclic_pad_eq x l r hl hr, by simp [cyclic_pad]⟩

theorem cyclic_pad_wrap_blocks_witness :
    1 ≤ ([10, 20, 30] : List Nat).length ∧ 2 ≤ ([10, 20, 30] : List Nat).length ∧
    cyclic_pad ([10, 20, 30] : List Nat) (1, 2) = some [30, 10, 20, 30, 10, 20] ∧
    cyclic_pad ([10, 20, 30] : List Nat) (0, 0) = some [10, 20, 30] := by
  have h := cyclic_pad_wrap_blocks ([10, 20, 30] : List Nat) 1 2 (by decide) (by decide)
  refine ⟨by decide, by decide, ?_, h.2⟩
  rw [h.1]
  decide

theorem crop_of_wrap {α : Type u} (x : List α) (l r : Nat) (hl : l ≤ x.length) :
    ((x.drop (x.length - l) ++ x ++ x.take r).drop l).take x.length = x := by
  have hlen : (x.drop (x.length - l)).length = l := by
    simp only [List.length_drop]
    omega
  rw [List.append_assoc, List.drop_left' hlen, List.take_left' rfl]

/-- Claim C6: cyclic padding with `l + r <` axis length followed by cropping back to
the original window (drop the first `l` and keep the next `length` slices)
recovers the input. -/
theorem cyclic_pad_crop_roundtrip {α : Type u} (x : List α) (l r : Nat)
    (h : l + r < x.length) :
    (cyclic_pad x (l, r)).map (fun y => (y.drop l).take x.length) = some x := by
  rw [cyclic_pad_eq x l r (by omega) (by omega), Option.map_some']
  congr 1
  exact crop_of_wrap x l r (by omega)

theorem cyclic_pad_crop_roundtrip_witness :
    1 + 1 < ([4, 5, 6] : List Nat).length ∧
    (cyclic_pad ([4, 5, 6] : List Nat) (1, 1)).map
      (fun y => (y.drop 1).take ([4, 5, 6] : List Nat).length) = some [4, 5, 6] :=
  ⟨by decide, cyclic_pad_crop_roundtrip ([4, 5, 6] : List Nat) 1 1 (by decide)⟩

/-- Claim C8: a cyclic padding amount exceeding the axis length is an error
(`torch.narrow` rejects the out-of-range slice), not a silent wrap. -/
theorem cyclic_pad_overflow_none {α : Type u} (x : List α) (l r : Nat)
    (h : x.length < l ∨ x.length < r) :
    cyclic_pad x (l, r) = none :=
  cyclic_pad_none x l r h

theorem cyclic_pad_overflow_none_witness :
    (([7, 8] : List Nat).length < 3 ∨ ([7, 8] : List Nat).length < 0) ∧
    cyclic_pad ([7, 8] : List Nat) (3, 0) = none :=
  ⟨Or.inl (by decide), cyclic_pad_overflow_none ([7, 8] : List Nat) 3 0 (Or.inl (by decide))⟩

/-- Claim C10: cyclic padding changes only the padded axis: the output length along
that axis is `l + length + r`, the slices (which carry every other axis
unchanged) between the two wrap blocks are exactly the input, and each output
slice is a slice of the input. -/
theorem cyclic_pad_frame_effect {α : Type u} (x : List α) (l r : Nat)
    (hl : l ≤ x.length) (hr : r ≤ x.length) :
    ∃ y, cyclic_pad x (l, r) = some y ∧ y.length = l + x.length + r ∧
      (y.drop l).take x.length = x ∧ ∀ a ∈ y, a ∈ x := by
  refine ⟨x.drop (x.length - l) ++ x ++ x.take r, cyclic_pad_eq x l r hl hr, ?_, ?_, ?_⟩
  · simp only [List.length_append, List.length_drop, List.length_take]
    omega
  · exact crop_of_wrap x l r hl
  · intro a ha
    rcases List.mem_append.mp ha with h1 | h1
    · rcases List.mem_append.mp h1 with h2 | h2
      · exact List.mem_of_mem_drop h2
      · exact h2
    · exact List.mem_of_mem_take h1

theorem cyclic_pad_frame_effect_witness :
    2 ≤ ([1, 2, 3] : List Nat).length ∧ 1 ≤ ([1, 2, 3] : List Nat).length ∧
    ∃ y, cyclic_pad ([1, 2, 3] : List Nat) (2, 1) = some y ∧
      y.length = 2 + ([1, 2, 3] : List Nat).length + 1 ∧
      (y.drop 2).take ([1, 2, 3] : List Nat).length = [1, 2, 3] ∧ ∀ a ∈ y, a ∈ [1, 2, 3] :=
  ⟨by decide, by decide, cyclic_pad_frame_effect ([1, 2, 3] : List Nat) 2 1 (by decide) (by decide)⟩

/-- Claim C7: on a (non-empty, rectangular) `height × width` tensor, `_pad2d`'s
width-axis padding followed by height-axis padding produces the same tensor as
height-axis padding followed by width-axis padding, for every pair of per-axis
amounts and per-axis modes (including matching error behaviour). -/
theorem pad2d_axis_order_comm (wmode hmode : PadMode) (wp hp w : Nat)
    (x : List (List Int)) (hx : x ≠ []) (hrect : ∀ row ∈ x, row.length = w) :
    pad2d wmode hmode wp hp w x = pad2d_hw wmode hmode wp hp w x := by
  by_cases hok : padOk wmode wp w
  · set g : List Int → Option (List Int) := pad_axis (0 : Int) wmode wp with hgdef
    set g' : List Int → List Int := fun row => (g row).getD [] with hgmapdef
    have hg : ∀ row : List Int, row.length = w → g row = some (g' row) := by
      intro row hrow
      have hs : (g row).isSome := by
        rw [hgdef, pad_axis_isSome, hrow]
        exact hok
      cases hgr : g row with
      | none => rw [hgr] at hs; cases hs
      | some v => simp [hgmapdef, hgr]
    have hz : g (List.replicate w (0 : Int)) =
        some (List.replicate (widthNew wmode wp w) (0 : Int)) := by
      rw [hgdef]
      exact pad_axis_const (0 : Int) wmode wp w hok
    have hz' : g' (List.replicate w (0 : Int)) = List.replicate (widthNew wmode wp w) (0 : Int) := by
      simp [hgmapdef, hz]
    have hmapx : mapO g x = some (x.map g') :=
      mapO_eq_map g g' (fun a ha => hg a (hrect a ha))
    rw [pad2d, pad2d_hw, hmapx]
    simp only [Option.bind_eq_bind, Option.some_bind]
    rw [← hz', pad_axis_map g' (List.replicate w (0 : Int)) hmode hp x]
    cases hpy : pad_axis (List.replicate w (0 : Int)) hmode hp x with
    | none => rfl
    | some ys =>
        simp only [Option.map_some', Option.bind_eq_bind, Option.some_bind]
        rw [mapO_eq_map g g']
        intro b hb
        rcases pad_axis_mem _ _ _ hpy hb with hbx | hbz
        · exact hg b (hrect b hbx)
        · subst hbz
          exact hg _ (by simp)
  · obtain ⟨r0, hr0⟩ := List.exists_mem_of_ne_nil x hx
    have hgr0 : pad_axis (0 : Int) wmode wp r0 = none := by
      cases hgr : pad_axis (0 : Int) wmode wp r0 with
      | none => rfl
      | some v =>
          exfalso
          apply hok
          have hs : (pad_axis (0 : Int) wmode wp r0).isSome := by rw [hgr]; rfl
          rw [pad_axis_isSome, hrect r0 hr0] at hs
          exact hs
    rw [pad2d, pad2d_hw, mapO_eq_none _ hr0 hgr0]
    simp only [Option.bind_eq_bind, Option.none_bind]
    cases hpy : pad_axis (List.replicate w (0 : Int)) hmode hp x with
    | none => rfl
    | some ys =>
        simp only [Option.bind_eq_bind, Option.some_bind]
        exact (mapO_eq_none _ (pad_axis_mem_of_mem _ _ _ hpy hr0) hgr0).symm

theorem pad2d_axis_order_comm_witness :
    (([[1, 2], [3, 4], [5, 6]] : List (List Int)) ≠ []) ∧
    (∀ row ∈ ([[1, 2], [3, 4], [5, 6]] : List (List Int)), row.length = 2) ∧
    pad2d PadMode.reflect PadMode.cyclic 1 1 2 [[1, 2], [3, 4], [5, 6]] =
      pad2d_hw PadMode.reflect PadMode.cyclic 1 1 2 [[1, 2], [3, 4], [5, 6]] :=
  ⟨by decide, by decide,
    pad2d_axis_order_comm PadMode.reflect PadMode.cyclic 1 1 2
      [[1, 2], [3, 4], [5, 6]] (by decide) (by decide)⟩

/-- Model of `torch.atan2(y, x)` over the reals: the argument of the complex
number `x + y·i`, valued in `(-π, π]`, with `atan2 0 0 = 0` (torch follows the
C convention `atan2(0, 0) = 0` and `atan2(0, x) = π` for `x < 0`). -/
noncomputable def atan2 (y x : ℝ) : ℝ := Complex.arg ((x : ℂ) + (y : ℂ) * Complex.I)

/-- The centred coordinate vector `rnge` built at the top of `_centroid`:
`rnge = arange(N) * step` shifted by `-rnge[-1] / 2 = -(N-1)*step/2`. -/
noncomputable def centroid_range (N : Nat) (step : ℝ) (i : Fin N) : ℝ :=
  (i : ℝ) * step - ((N - 1 : Nat) : ℝ) * step / 2

/-- Resultant-vector x component of the periodic branch of `_centroid` for one
sample: `x_c = heatmap.mv(cos(rnge * π))`. -/
noncomputable def x_c (N : Nat) (heatmap : Fin N → ℝ) (step : ℝ) : ℝ :=
  ∑ i, heatmap i * Real.cos (centroid_range N step i * Real.pi)

/-- Resultant-vector y component: `y_c = heatmap.mv(sin(rnge * π))`. -/
noncomputable def y_c (N : Nat) (heatmap : Fin N → ℝ) (step : ℝ) : ℝ :=
  ∑ i, heatmap i * Real.sin (centroid_range N step i * Real.pi)

/-- Model of `_centroid(heatmap, step, periodic)` for one row of the batch:
`atan2(y_c, x_c) / π` in the periodic case, `heatmap.mv(rnge)` otherwise. -/
noncomputable def centroid (N : Nat) (heatmap : Fin N → ℝ) (step : ℝ) (periodic : Bool) : ℝ :=
  if periodic then atan2 (y_c N heatmap step) (x_c N heatmap step) / Real.pi
  else ∑ i, heatmap i * centroid_range N step i

/-- Softmax normalisation of the response logits (`F.softmax(out_u, -1)`). -/
noncomputable def softmax (N : Nat) (z : Fin N → ℝ) (i : Fin N) : ℝ :=
  Real.exp (z i) / ∑ j, Real.exp (z j)

/-- The scalar pose estimate of the u branch of
`EquivariantPosePredictor.forward` as a function of the response logits
produced by `conv_u`: `u = _centroid(softmax(out_u), udelta, periodic_u)
+ tanh(bias_u)`. -/
noncomputable def forward_u (N : Nat) (logits : Fin N → ℝ) (udelta : ℝ)
    (periodic_u : Bool) (bias_u : ℝ) : ℝ :=
  centroid N (softmax N logits) udelta periodic_u + Real.tanh bias_u

/-- The response map of the spec's boundary-mass scenario: weight 1/2 at bin 0,
weight 1/2 at bin N-1, zero elsewhere. -/
noncomputable def spikeEnds (N : Nat) (i : Fin N) : ℝ :=
  if i.val = 0 ∨ i.val = N - 1 then 1 / 2 else 0

theorem atan2_zero_neg {x : ℝ} (hx : x < 0) : atan2 0 x = Real.pi := by
  unfold atan2
  rw [show ((x : ℂ) + ((0 : ℝ) : ℂ) * Complex.I) = ((x : ℝ) : ℂ) by push_cast; ring]
  exact Complex.arg_ofReal_of_neg hx

theorem atan2_zero_nonneg {x : ℝ} (hx : 0 ≤ x) : atan2 0 x = 0 := by
  unfold atan2
  rw [show ((x : ℂ) + ((0 : ℝ) : ℂ) * Complex.I) = ((x : ℝ) : ℂ) by push_cast; ring]
  exact Complex.arg_ofReal_of_nonneg hx

theorem uniform2_x_c : x_c 2 (fun _ => 1 / (2:ℝ)) 2 = -1 := by
  unfold x_c centroid_range
  rw [Fin.sum_univ_two]
  norm_num [Real.cos_pi]

theorem uniform2_y_c : y_c 2 (fun _ => 1 / (2:ℝ)) 2 = 0 := by
  unfold y_c centroid_range
  rw [Fin.sum_univ_two]
  norm_num [Real.sin_pi]

theorem uniform2_centroid : centroid 2 (fun _ => 1 / (2:ℝ)) 2 true = 1 := by
  unfold centroid
  rw [if_pos rfl, uniform2_x_c, uniform2_y_c, atan2_zero_neg (by norm_num)]
  exact div_self Real.pi_ne_zero

theorem y_c_uniform (N : Nat) (step : ℝ) : y_c N (fun _ => 1 / (N : ℝ)) step = 0 := by
  unfold y_c
  have key : ∑ i : Fin N, Real.sin (centroid_range N step i * Real.pi) = 0 := by
    have hconv : ∑ i : Fin N, Real.sin (centroid_range N step i * Real.pi) =
        ∑ j in Finset.range N,
          Real.sin (((j : ℝ) * step - ((N - 1 : Nat) : ℝ) * step / 2) * Real.pi) := by
      simp only [centroid_range]
      exact Fin.sum_univ_eq_sum_range (fun j =>
        Real.sin (((j : ℝ) * step - ((N - 1 : Nat) : ℝ) * step / 2) * Real.pi)) N
    rw [hconv]
    set g : Nat → ℝ := fun j =>
      Real.sin (((j : ℝ) * step - ((N - 1 : Nat) : ℝ) * step / 2) * Real.pi) with hg
    have hrefl := Finset.sum_range_reflect g N
    have hneg : ∀ j ∈ Finset.range N, g (N - 1 - j) = -g j := by
      intro j hj
      rw [Finset.mem_range] at hj
      rw [hg]
      simp only
      rw [← Real.sin_neg]
      congr 1
      have h1 : ((N - 1 - j : Nat) : ℝ) = ((N : ℝ) - 1) - (j : ℝ) := by
        have : ((N - 1 : Nat) : ℝ) = (N : ℝ) - 1 := by
          have hN : 1 ≤ N := by omega
          push_cast [Nat.cast_sub hN]
          ring
        rw [Nat.cast_sub (by omega), this]
      rw [h1]
      have h2 : ((N - 1 : Nat) : ℝ) = (N : ℝ) - 1 := by
        have hN : 1 ≤ N := by omega
        push_cast [Nat.cast_sub hN]
        ring
      rw [h2]
      ring
    have : ∑ j in Finset.range N, g j = -∑ j in Finset.range N, g j := by
      calc ∑ j in Finset.range N, g j = ∑ j in Finset.range N, g (N - 1 - j) := hrefl.symm
        _ = ∑ j in Finset.range N, -g j := Finset.sum_congr rfl hneg
        _ = -∑ j in Finset.range N, g j := by rw [Finset.sum_neg_distrib]
    linarith
  calc ∑ i : Fin N, (1 / (N : ℝ)) * Real.sin (centroid_range N step i * Real.pi)
      = (1 / (N : ℝ)) * ∑ i : Fin N, Real.sin (centroid_range N step i * Real.pi) := by
        rw [Finset.mul_sum]
    _ = 0 := by rw [key, mul_zero]

/-- Claim C5 (amended): for every length `N` and every step, the periodic
centroid of the perfectly uniform response map is defined (no NaN, no error)
and equals exactly 0 or exactly 1: the sine resultant `y_c` vanishes by the
symmetry of the centred coordinates, so the result is `atan2(0, x_c)/π`,
which is 0 when `x_c ≥ 0` (including the degenerate `x_c = y_c = 0` case,
since `atan2(0,0) = 0`) and 1 when `x_c < 0`. -/
theorem uniform_periodic_centroid_cases (N : Nat) (step : ℝ) :
    y_c N (fun _ => 1 / (N : ℝ)) step = 0 ∧
    (centroid N (fun _ => 1 / (N : ℝ)) step true = 0 ∨
      centroid N (fun _ => 1 / (N : ℝ)) step true = 1) := by
  refine ⟨y_c_uniform N step, ?_⟩
  unfold centroid
  rw [if_pos rfl, y_c_uniform N step]
  rcases le_or_lt 0 (x_c N (fun _ => 1 / (N : ℝ)) step) with hx | hx
  · left
    rw [atan2_zero_nonneg hx, zero_div]
  · right
    rw [atan2_zero_neg hx]
    exact div_self Real.pi_ne_zero

/-- Counterexample to claim C5 as stated: for `N = 2` with the code's natural
step `2/(N-1) = 2`, the uniform response map gives `x_c = (cos(-π)+cos(π))/2
= -1` and `y_c = 0`, so the periodic centroid is `atan2(0,-1)/π = 1`, not 0. -/
theorem uniform_periodic_centroid_counterexample :
    centroid 2 (fun _ => 1 / (2 : ℝ)) 2 true ≠ 0 := by
  rw [uniform2_centroid]
  norm_num

theorem spike_mul_sum (N : Nat) (hN : 2 ≤ N) (g : Fin N → ℝ) :
    ∑ i, spikeEnds N i * g i =
      (g ⟨0, by omega⟩ + g ⟨N - 1, by omega⟩) / 2 := by
  have hab : (⟨0, by omega⟩ : Fin N) ≠ (⟨N - 1, by omega⟩ : Fin N) := by
    simp only [Ne, Fin.mk.injEq]
    omega
  rw [← Finset.sum_subset
    (Finset.subset_univ ({⟨0, by omega⟩, ⟨N - 1, by omega⟩} : Finset (Fin N)))]
  · rw [Finset.sum_pair hab]
    have h0 : spikeEnds N ⟨0, by omega⟩ = 1 / 2 := by simp [spikeEnds]
    have h1 : spikeEnds N ⟨N - 1, by omega⟩ = 1 / 2 := by simp [spikeEnds]
    rw [h0, h1]
    ring
  · intro i _ hi
    simp only [Finset.mem_insert, Finset.mem_singleton] at hi
    push_neg at hi
    have hcond : ¬ (i.val = 0 ∨ i.val = N - 1) := by
      rcases hi with ⟨ha, hb⟩
      intro hc
      rcases hc with hc | hc
      · exact ha (Fin.ext hc)
      · exact hb (Fin.ext hc)
    rw [spikeEnds, if_neg hcond, zero_mul]

/-- Claim C2: on a periodic axis of length `N ≥ 4` with step `2/(N-1)`, the
response map with mass 1/2 at bin 0 and 1/2 at bin `N-1` has periodic centroid
of absolute value exactly 1 (the wrap boundary), while the linear-mean
(non-periodic) computation on the same response map is exactly 0. -/
theorem periodic_centroid_boundary_mass (N : Nat) (hN : 4 ≤ N) :
    |centroid N (spikeEnds N) (2 / ((N : ℝ) - 1)) true| = 1 ∧
    centroid N (spikeEnds N) (2 / ((N : ℝ) - 1)) false = 0 := by
  have hNR : (4 : ℝ) ≤ (N : ℝ) := by exact_mod_cast hN
  have hne : (N : ℝ) - 1 ≠ 0 := by linarith
  have hcast : ((N - 1 : Nat) : ℝ) = (N : ℝ) - 1 := by
    rw [Nat.cast_sub (by omega)]
    norm_num
  have hv0 : ((⟨0, by omega⟩ : Fin N) : ℝ) = 0 := by norm_num
  have hvN : ((⟨N - 1, by omega⟩ : Fin N) : ℝ) = (N : ℝ) - 1 := by
    rw [show ((⟨N - 1, by omega⟩ : Fin N) : ℝ) = ((N - 1 : Nat) : ℝ) from rfl, hcast]
  have hc0 : centroid_range N (2 / ((N : ℝ) - 1)) ⟨0, by omega⟩ = -1 := by
    unfold centroid_range
    rw [hv0, hcast]
    field_simp
  have hcN : centroid_range N (2 / ((N : ℝ) - 1)) ⟨N - 1, by omega⟩ = 1 := by
    unfold centroid_range
    rw [hvN]
    field_simp
    ring
  have hx : x_c N (spikeEnds N) (2 / ((N : ℝ) - 1)) = -1 := by
    unfold x_c
    rw [spike_mul_sum N (by omega), hc0, hcN]
    norm_num [Real.cos_pi]
  have hy : y_c N (spikeEnds N) (2 / ((N : ℝ) - 1)) = 0 := by
    unfold y_c
    rw [spike_mul_sum N (by omega), hc0, hcN]
    norm_num [Real.sin_pi]
  constructor
  · unfold centroid
    rw [if_pos rfl, hy, hx, atan2_zero_neg (by norm_num), div_self Real.pi_ne_zero]
    norm_num
  · unfold centroid
    rw [if_neg (by simp), spike_mul_sum N (by omega), hc0, hcN]
    norm_num

theorem linCentroid_abs_bound (N : Nat) (w : Fin N → ℝ) (step : ℝ)
    (hw : ∀ i, 0 ≤ w i) (h1 : ∑ i, w i = 1) (hs : 0 < step) :
    |∑ i, w i * centroid_range N step i| ≤ step * ((N : ℝ) - 1) / 2 := by
  have hN : 1 ≤ N := by
    by_contra hc
    have hN0 : N = 0 := by omega
    subst hN0
    simp at h1
  have hcast : ((N - 1 : Nat) : ℝ) = (N : ℝ) - 1 := by
    rw [Nat.cast_sub (by omega)]
    norm_num
  set B : ℝ := step * ((N : ℝ) - 1) / 2 with hB
  have hcoord : ∀ i : Fin N, -B ≤ centroid_range N step i ∧ centroid_range N step i ≤ B := by
    intro i
    unfold centroid_range
    rw [hcast]
    have hi0 : (0 : ℝ) ≤ (i : ℝ) := by positivity
    have hiN : (i : ℝ) ≤ (N : ℝ) - 1 := by
      have hlt : i.val ≤ N - 1 := by omega
      calc (i : ℝ) ≤ ((N - 1 : Nat) : ℝ) := by exact_mod_cast hlt
        _ = (N : ℝ) - 1 := hcast
    constructor
    · rw [hB]
      nlinarith
    · rw [hB]
      nlinarith
  have hup : ∑ i, w i * centroid_range N step i ≤ B := by
    calc ∑ i, w i * centroid_range N step i ≤ ∑ i, w i * B :=
        Finset.sum_le_sum (fun i _ => mul_le_mul_of_nonneg_left (hcoord i).2 (hw i))
      _ = B := by rw [← Finset.sum_mul, h1, one_mul]
  have hlo : -B ≤ ∑ i, w i * centroid_range N step i := by
    calc -B = ∑ i, w i * (-B) := by rw [← Finset.sum_mul, h1, one_mul]
      _ ≤ ∑ i, w i * centroid_range N step i :=
        Finset.sum_le_sum (fun i _ => mul_le_mul_of_nonneg_left (hcoord i).1 (hw i))
  exact abs_le.mpr ⟨hlo, hup⟩

/-- Claim C9: for a non-negative response map summing to 1 and step `δ > 0`,
the non-periodic centroid is a convex combination of the centred bin
coordinates and therefore lies in `[-δ(N-1)/2, δ(N-1)/2]`; for the head's
natural step `δ = 2/(N-1)` this interval is `[-1, 1]`. -/
theorem linear_centroid_convex_bound (N : Nat) (w : Fin N → ℝ) (step : ℝ)
    (hw : ∀ i, 0 ≤ w i) (h1 : ∑ i, w i = 1) (hs : 0 < step) :
    (-(step * ((N : ℝ) - 1) / 2) ≤ centroid N w step false ∧
      centroid N w step false ≤ step * ((N : ℝ) - 1) / 2) ∧
    (step = 2 / ((N : ℝ) - 1) → |centroid N w step false| ≤ 1) := by
  have habs := linCentroid_abs_bound N w step hw h1 hs
  have hc : centroid N w step false = ∑ i, w i * centroid_range N step i := by
    unfold centroid
    rw [if_neg (by simp)]
  rw [abs_le] at habs
  refine ⟨⟨by rw [hc]; exact habs.1, by rw [hc]; exact habs.2⟩, ?_⟩
  intro hstep
  have hne : (N : ℝ) - 1 ≠ 0 := by
    intro h0
    rw [hstep, h0, div_zero] at hs
    exact lt_irrefl 0 hs
  have hBeq : step * ((N : ℝ) - 1) / 2 = 1 := by
    rw [hstep]
    field_simp
  rw [hc, abs_le]
  rw [hBeq] at habs
  exact habs

theorem abs_tanh_lt_one (t : ℝ) : |Real.tanh t| < 1 := by
  rw [Real.tanh_eq_sinh_div_cosh, abs_div, abs_of_pos (Real.cosh_pos t),
    div_lt_one (Real.cosh_pos t)]
  nlinarith [Real.cosh_sq t, sq_abs (Real.sinh t), abs_nonneg (Real.sinh t),
    Real.cosh_pos t]

theorem periodic_centroid_mem (N : Nat) (heatmap : Fin N → ℝ) (step : ℝ) :
    -1 < centroid N heatmap step true ∧ centroid N heatmap step true ≤ 1 := by
  unfold centroid
  rw [if_pos rfl]
  unfold atan2
  constructor
  · rw [lt_div_iff₀ Real.pi_pos]
    have := Complex.neg_pi_lt_arg ((x_c N heatmap step : ℂ) + (y_c N heatmap step : ℂ) * Complex.I)
    linarith
  · rw [div_le_one Real.pi_pos]
    exact Complex.arg_le_pi _

theorem softmax_nonneg (N : Nat) (z : Fin N → ℝ) (i : Fin N) : 0 ≤ softmax N z i := by
  unfold softmax
  positivity

theorem softmax_sum_one (N : Nat) (hN : 0 < N) (z : Fin N → ℝ) :
    ∑ i, softmax N z i = 1 := by
  unfold softmax
  have hpos : 0 < ∑ j, Real.exp (z j) := by
    have : Nonempty (Fin N) := ⟨⟨0, hN⟩⟩
    exact Finset.sum_pos (fun j _ => Real.exp_pos (z j)) Finset.univ_nonempty
  rw [← Finset.sum_div]
  exact div_self hpos.ne'

/-- Claim C3 (amended): the scalar pose estimate of the soft-argmax head is
the raw centroid (which lies in `[-1, 1]`: the periodic branch by the range of
`atan2`, the linear branch by convexity whenever the tracked step satisfies
`δ(N-1)/2 ≤ 1`, as the network's stride bookkeeping guarantees) plus
`tanh(bias)`, which lies in the open interval `(-1, 1)`; the estimate is
therefore only guaranteed to lie in the open interval `(-2, 2)`, not `[-1,1]`. -/
theorem pose_estimate_open_range (N : Nat) (logits : Fin N → ℝ) (udelta : ℝ)
    (p : Bool) (bias : ℝ) (hN : 1 ≤ N)
    (hdelta : p = false → 0 < udelta ∧ udelta * ((N : ℝ) - 1) / 2 ≤ 1) :
    -2 < forward_u N logits udelta p bias ∧ forward_u N logits udelta p bias < 2 := by
  have htanh := abs_tanh_lt_one bias
  rw [abs_lt] at htanh
  have hcent : -1 ≤ centroid N (softmax N logits) udelta p ∧
      centroid N (softmax N logits) udelta p ≤ 1 := by
    cases p with
    | false =>
        obtain ⟨hs, hb⟩ := hdelta rfl
        have habs := linCentroid_abs_bound N (softmax N logits) udelta
          (softmax_nonneg N logits) (softmax_sum_one N (by omega) logits) hs
        have hc : centroid N (softmax N logits) udelta false =
            ∑ i, softmax N logits i * centroid_range N udelta i := by
          unfold centroid
          rw [if_neg (by simp)]
        rw [hc]
        rw [abs_le] at habs
        constructor
        · linarith [habs.1]
        · linarith [habs.2]
    | true =>
        have h := periodic_centroid_mem N (softmax N logits) udelta
        exact ⟨h.1.le, h.2⟩
  unfold forward_u
  constructor
  · linarith [hcent.1, htanh.1]
  · linarith [hcent.2, htanh.2]

/-- Counterexample to claim C3 as stated: with `periodic_u = True`, zero
`conv_u` weights (so the logits are all 0 and the softmax response map is
uniform over `N = 2` bins, reachable for a 2-pixel-wide input with strides
(1,1), giving `udelta = 2`) and `bias_u = 1`, the returned estimate is
`1 + tanh(1) > 1`, outside `[-1, 1]`. -/
theorem pose_estimate_range_counterexample :
    1 < forward_u 2 (fun _ => 0) 2 true 1 := by
  unfold forward_u
  have hsm : softmax 2 (fun _ => (0 : ℝ)) = fun _ => 1 / (2 : ℝ) := by
    funext i
    unfold softmax
    rw [Fin.sum_univ_two]
    norm_num
  rw [hsm, uniform2_centroid]
  have htanh : 0 < Real.tanh 1 := by
    rw [Real.tanh_eq_sinh_div_cosh]
    exact div_pos (by rw [Real.sinh_pos_iff]; norm_num) (Real.cosh_pos 1)
  linarith

theorem periodic_centroid_boundary_mass_witness :
    4 ≤ 4 ∧
    (|centroid 4 (spikeEnds 4) (2 / (((4 : Nat) : ℝ) - 1)) true| = 1 ∧
      centroid 4 (spikeEnds 4) (2 / (((4 : Nat) : ℝ) - 1)) false = 0) :=
  ⟨le_refl 4, periodic_centroid_boundary_mass 4 (le_refl 4)⟩

theorem linear_centroid_convex_bound_witness :
    (∀ _i : Fin 1, (0 : ℝ) ≤ 1) ∧ (∑ _i : Fin 1, (1 : ℝ)) = 1 ∧ (0 : ℝ) < 1 ∧
    ((-((1 : ℝ) * (((1 : Nat) : ℝ) - 1) / 2) ≤ centroid 1 (fun _ => 1) 1 false ∧
        centroid 1 (fun _ => 1) 1 false ≤ (1 : ℝ) * (((1 : Nat) : ℝ) - 1) / 2) ∧
      ((1 : ℝ) = 2 / (((1 : Nat) : ℝ) - 1) → |centroid 1 (fun _ => 1) 1 false| ≤ 1)) :=
  ⟨fun _ => zero_le_one, by simp, zero_lt_one,
    linear_centroid_convex_bound 1 (fun _ => 1) 1 (fun _ => zero_le_one) (by simp)
      zero_lt_one⟩

theorem pose_estimate_open_range_witness :
    1 ≤ 1 ∧
    ((true = false → (0 : ℝ) < 1 ∧ (1 : ℝ) * (((1 : Nat) : ℝ) - 1) / 2 ≤ 1) ∧
      (-2 < forward_u 1 (fun _ => 0) 1 true 0 ∧ forward_u 1 (fun _ => 0) 1 true 0 < 2)) :=
  ⟨le_refl 1, by simp,
    pose_estimate_open_range 1 (fun _ => 0) 1 true 0 (le_refl 1) (by simp)⟩

/-- Configuration record of `EquivariantPosePredictor` (the fields its
`__init__` stores before building the conv/batch-norm layers). -/
structure EquivariantPosePredictor where
  in_channels : Nat
  nf : Nat
  kernel_size : Nat
  strides : Nat × Nat
  periodic_u : Bool
  periodic_v : Bool
  return_u : Bool
  return_v : Bool
  pad_mode : PadMode × PadMode

/-- Model of `EquivariantPosePredictor.__init__`: raises
`ValueError('At least one of return_u and return_v must be true.')` inside the
constructor when both `return_u` and `return_v` are false, and otherwise
returns the configured module with the per-axis pad modes derived from the
periodicity flags. -/
def EquivariantPosePredictor.init (in_channels nf kernel_size : Nat)
    (strides : Nat × Nat) (periodic_u periodic_v return_u return_v : Bool) :
    Except String EquivariantPosePredictor :=
  if !return_u && !return_v then
    Except.error "At least one of return_u and return_v must be true."
  else
    Except.ok
      { in_channels := in_channels
        nf := nf
        kernel_size := kernel_size
        strides := strides
        periodic_u := periodic_u
        periodic_v := periodic_v
        return_u := return_u
        return_v := return_v
        pad_mode := (if periodic_u then PadMode.cyclic else PadMode.constant,
                     if periodic_v then PadMode.cyclic else PadMode.constant) }

/-- Configuration record of `DirectPosePredictor`. -/
structure DirectPosePredictor where
  in_channels : Nat
  nf : Nat
  kernel_size : Nat
  strides : Nat × Nat
  periodic_u : Bool
  periodic_v : Bool
  num_outputs : Nat
  pad_mode : PadMode × PadMode

/-- Model of `DirectPosePredictor.__init__`: the source contains no validation
of `num_outputs` (and `nn.Linear(nf*k*k, 0, bias=True)` constructs an empty
linear layer without error in PyTorch), so construction always succeeds. -/
def DirectPosePredictor.init (in_channels nf kernel_size : Nat)
    (strides : Nat × Nat) (periodic_u periodic_v : Bool) (num_outputs : Nat) :
    Except String DirectPosePredictor :=
  Except.ok
    { in_channels := in_channels
      nf := nf
      kernel_size := kernel_size
      strides := strides
      periodic_u := periodic_u
      periodic_v := periodic_v
      num_outputs := num_outputs
      pad_mode := (if periodic_u then PadMode.cyclic else PadMode.constant,
                   if periodic_v then PadMode.cyclic else PadMode.constant) }

/-- Counterexample to claim C4 as stated: constructing `DirectPosePredictor`
with `num_outputs = 0` does not raise any configuration error — `__init__`
performs no validation and returns a module. -/
theorem direct_init_accepts_zero_outputs :
    (DirectPosePredictor.init 1 32 5 (2, 2) false false 0).toOption.isSome = true := rfl

/-- Claim C4 (amended): constructing the soft-argmax head with
`return_u = False` and `return_v = False` raises `ValueError` immediately at
construction time, for every other parameter choice; the direct-regression
head, however, performs no `num_outputs` validation, so construction succeeds
for every `num_outputs`, including 0. -/
theorem init_validation_amended :
    (∀ (ic nf k : Nat) (s : Nat × Nat) (pu pv : Bool),
      EquivariantPosePredictor.init ic nf k s pu pv false false =
        Except.error "At least one of return_u and return_v must be true.") ∧
    (∀ (ic nf k : Nat) (s : Nat × Nat) (pu pv : Bool) (n : Nat),
      (DirectPosePredictor.init ic nf k s pu pv n).toOption.isSome = true) :=
  ⟨fun _ _ _ _ _ _ => rfl, fun _ _ _ _ _ _ _ => rfl⟩
